import Mathlib

/-!
Verification of the hybrid retrieval pipeline of the `unsw_rag` repository.

The Python modules under `src/search/` are shallowly embedded here:
* `fusion.py` (`HybridFusion.reciprocal_rank_fusion`),
* `reranker.py` (`Reranker.rerank`, `_rerank_local`, `rerank_with_metadata`),
* `bm25_search.py` (`BM25Searcher._build_tsquery`, `BM25Searcher.search`),
* `vector_search.py` (`_cosine_similarity`, `_fast_cosine_similarity`),
* `citation.py` (`CitationFormatter._format_citation_string`, result formatting),
* `hybrid_search.py` (`HybridSearchEngine.search`).

Python dictionaries holding search hits are modelled by the record `Doc`
whose optional fields stand for keys that may be absent from a dict.
Float scores are modelled by exact rationals; the external cross-encoder
(`model.predict`) and `math.log1p` are abstracted as function parameters;
`numpy` square roots are modelled over the reals.
-/

namespace UnswRag

/-- The `chunk_metadata` mapping of a search hit, restricted to the keys the
reranker boost logic and the claims read (`citations_count`, `is_open_access`,
`pub_year`).  `none` models an absent key. -/
structure Metadata where
  citations_count : Option ℚ := none
  is_open_access : Option Bool := none
  pub_year : Option ℚ := none
deriving DecidableEq

/-- A search-hit dictionary as passed between the pipeline stages.  Optional
fields model dictionary keys that may be absent (`doc.get(...)` semantics). -/
structure Doc where
  chunk_id : String
  content : String := ""
  bm25_score : Option ℚ := none
  vector_score : Option ℚ := none
  rrf_score : Option ℚ := none
  rerank_score : Option ℚ := none
  final_score : Option ℚ := none
  metadata : Metadata := {}
deriving DecidableEq

/-- Value of `doc["rrf_score"]`, with 0 for an absent key. -/
def rrfVal (d : Doc) : ℚ := d.rrf_score.getD 0

/-- Value of `doc.get("rerank_score", 0)`. -/
def rerankVal (d : Doc) : ℚ := d.rerank_score.getD 0

/-- Value of `doc.get("final_score", 0)`, the key of the final sort in
`rerank_with_metadata`. -/
def finalVal (d : Doc) : ℚ := d.final_score.getD 0

/-- Descending comparison on a rational score projection; `keyGe f a b` holds
when `a`'s key is at least `b`'s.  `List.insertionSort (keyGe f)` models
Python's stable `list.sort(key=f, reverse=True)`. -/
def keyGe (f : Doc → ℚ) : Doc → Doc → Prop := fun a b => f b ≤ f a

instance (f : Doc → ℚ) : DecidableRel (keyGe f) :=
  fun a b => inferInstanceAs (Decidable (f b ≤ f a))

instance (f : Doc → ℚ) : IsTotal Doc (keyGe f) :=
  ⟨fun a b => le_total (f b) (f a)⟩

instance (f : Doc → ℚ) : IsTrans Doc (keyGe f) :=
  ⟨fun _ _ _ h1 h2 => le_trans h2 h1⟩

/-! ### RRF fusion (`fusion.py`, `HybridFusion.reciprocal_rank_fusion`)

The pair of dictionaries `rrf_scores : defaultdict(float)` and
`doc_info : dict` is modelled by one insertion-ordered association list whose
entries carry the accumulated score and the first-seen document per
`chunk_id`; both Python dicts gain their keys at the same moment (first
occurrence of a `chunk_id`), so a single list is faithful. -/

/-- One entry of the fusion state: `(chunk_id, accumulated rrf score, first
document seen with this chunk_id)`. -/
abbrev FusionEntry := String × ℚ × Doc

/-- `rrf_scores[chunk_id] += v` together with
`doc_info.setdefault(chunk_id, d)`: adds `v` to the entry of `cid`, keeping
the stored document; appends a fresh entry when `cid` is new (Python dicts
preserve insertion order). -/
def upsertScore (cid : String) (v : ℚ) (d : Doc) : List FusionEntry → List FusionEntry
  | [] => [(cid, v, d)]
  | (c, x, d0) :: rest =>
    if c = cid then (c, x + v, d0) :: rest
    else (c, x, d0) :: upsertScore cid v d rest

/-- The inner loop `for rank, doc in enumerate(results, start=1)`: each
document contributes `1.0 / (k + rank)` at its 1-based rank. -/
def processListAux (k : ℕ) : ℕ → List Doc → List FusionEntry → List FusionEntry
  | _, [], st => st
  | rank, d :: rest, st =>
    processListAux k (rank + 1) rest (upsertScore d.chunk_id (1 / ((k : ℚ) + rank)) d st)

/-- Processing one source result list, ranks starting at 1. -/
def processList (k : ℕ) (st : List FusionEntry) (results : List Doc) : List FusionEntry :=
  processListAux k 1 results st

/-- `doc_info[chunk_id].copy()` enriched as in the output loop of
`reciprocal_rank_fusion`: the fused score is stored under `rrf_score`, and
missing `bm25_score` / `vector_score` keys are defaulted to `0.0`. -/
def finalizeEntry (e : FusionEntry) : Doc :=
  { e.2.2 with
    rrf_score := some e.2.1
    bm25_score := some (e.2.2.bm25_score.getD 0)
    vector_score := some (e.2.2.vector_score.getD 0) }

/-- `HybridFusion.reciprocal_rank_fusion(results_lists, k=60)`: accumulate
reciprocal-rank scores over all source lists, build one output document per
distinct `chunk_id`, and stable-sort by `rrf_score` descending. -/
def reciprocal_rank_fusion (results_lists : List (List Doc)) (k : ℕ) : List Doc :=
  ((results_lists.foldl (processList k) []).map finalizeEntry).insertionSort (keyGe rrfVal)

/-- Contribution of one source list to `cid`, written as the spec writes it:
`1 / (k + rank)` at the 1-based rank of each occurrence of `cid`, and 0 for
lists not containing it. -/
def listContributionAux (k : ℕ) (cid : String) : ℕ → List Doc → ℚ
  | _, [] => 0
  | rank, d :: rest =>
    (if d.chunk_id = cid then 1 / ((k : ℚ) + rank) else 0) +
      listContributionAux k cid (rank + 1) rest

/-- The fusion score exactly as the specification states it: the sum over the
source lists of the per-list reciprocal-rank contributions of `cid`. -/
def specFusionScore (k : ℕ) (results_lists : List (List Doc)) (cid : String) : ℚ :=
  (results_lists.map (listContributionAux k cid 1)).sum

/-- Total accumulated score of `cid` in a fusion state (sum over all entries
with that key; a well-formed state has at most one). -/
def scoreOf : List FusionEntry → String → ℚ
  | [], _ => 0
  | e :: rest, cid => (if e.1 = cid then e.2.1 else 0) + scoreOf rest cid

/-- Keys of a fusion state, in insertion order. -/
def keysOf (st : List FusionEntry) : List String := st.map (·.1)

/-- First entry document recorded under a given `chunk_id` in the state. -/
def entryDoc : List FusionEntry → String → Option Doc
  | [], _ => none
  | e :: rest, cid => if e.1 = cid then some e.2.2 else entryDoc rest cid

/-- First document of a list carrying the given `chunk_id`, i.e. the one
whose dictionary `doc_info` remembers. -/
def firstDocWith (cid : String) : List Doc → Option Doc
  | [] => none
  | d :: rest => if d.chunk_id = cid then some d else firstDocWith cid rest

/-! ### Reranker (`reranker.py`)

The external cross-encoder `self.model.predict` is abstracted as a scoring
function `score : query → content → ℚ`, and `math.log1p` as a function
parameter `log1p : ℚ → ℚ` (the boost logic evaluates it at the candidate's
citation count only). -/

/-- Metadata boost weights: `boost_fields` restricted to the three keys the
code reads; `none` models an absent key. -/
structure Boosts where
  citations_count : Option ℚ := none
  is_open_access : Option ℚ := none
  publication_year : Option ℚ := none
deriving DecidableEq

/-- The `boost_score` accumulated in the loop of `rerank_with_metadata`:
`w * log1p(citations) / 10` for the citation-count key,
`w` for a true open-access flag, and `w * (year - 2000) / 25` for the
publication-year key, defaults as in the `metadata.get` calls. -/
def boostScore (log1p : ℚ → ℚ) (b : Boosts) (d : Doc) : ℚ :=
  (match b.citations_count with
    | some w => w * log1p (d.metadata.citations_count.getD 0) / 10
    | none => 0) +
  (match b.is_open_access with
    | some w => if d.metadata.is_open_access.getD false then w else 0
    | none => 0) +
  (match b.publication_year with
    | some w => w * ((d.metadata.pub_year.getD 2000) - 2000) / 25
    | none => 0)

/-- `Reranker._rerank_local`: score every `(query, content)` pair, store the
score under `rerank_score`, stable-sort descending by it, return the first
`top_k`. -/
def rerankLocal (score : String → String → ℚ) (query : String)
    (documents : List Doc) (top_k : ℕ) : List Doc :=
  ((documents.map fun d => { d with rerank_score := some (score query d.content) }).insertionSort
    (keyGe rerankVal)).take top_k

/-- `Reranker.rerank` with the default `local` model type: empty input short
circuits to `[]`, otherwise `_rerank_local`. -/
def rerank (score : String → String → ℚ) (query : String)
    (documents : List Doc) (top_k : ℕ) : List Doc :=
  if documents = [] then [] else rerankLocal score query documents top_k

/-- The per-document update of the boost loop:
`doc["final_score"] = doc.get("rerank_score", 0) + boost_score`. -/
def applyBoost (log1p : ℚ → ℚ) (b : Boosts) (d : Doc) : Doc :=
  { d with final_score := some (d.rerank_score.getD 0 + boostScore log1p b d) }

/-- `Reranker.rerank_with_metadata`: rerank to `top_k * 2` candidates; with no
`boost_fields` return the first `top_k` of those; otherwise attach
`final_score` to each candidate, stable-sort by `final_score` descending
(`x.get("final_score", 0)`), and return the first `top_k`. -/
def rerank_with_metadata (score : String → String → ℚ) (log1p : ℚ → ℚ)
    (query : String) (documents : List Doc) (top_k : ℕ)
    (boost_fields : Option Boosts) : List Doc :=
  let reranked := rerank score query documents (top_k * 2)
  match boost_fields with
  | none => reranked.take top_k
  | some b =>
    (((reranked.map (applyBoost log1p b)).insertionSort (keyGe finalVal)).take top_k)

/-! ### Lexical search (`bm25_search.py`) -/

/-- The character filter of `_build_tsquery`:
`''.join(c for c in term if c.isalnum() or c in ['-', '_'])`. -/
def cleanTerm (t : String) : String :=
  String.mk (t.toList.filter fun c => c.isAlphanum || c = '-' || c = '_')

/-- Helper for `pySplit`: walks the characters, `cur` holding the current
token reversed; whitespace closes a token, and empty tokens are never
produced. -/
def pySplitAux : List Char → List Char → List String
  | [], cur => if cur = [] then [] else [String.mk cur.reverse]
  | c :: rest, cur =>
    if c.isWhitespace then
      (if cur = [] then [] else [String.mk cur.reverse]) ++ pySplitAux rest []
    else pySplitAux rest (c :: cur)

/-- Python's `query.strip().split()`: the maximal runs of non-whitespace
characters, in order; leading/trailing whitespace is ignored and no empty
token is produced (so the preceding `strip()` is immaterial). -/
def pySplit (s : String) : List String := pySplitAux s.toList []

/-- `BM25Searcher._build_tsquery`: whitespace-tokenize the query
(`query.strip().split()`), clean each term, drop terms that became empty, and
join the survivors with `" & "`; the empty query yields `""`. -/
def buildTsquery (query : String) : String :=
  String.intercalate " & " (((pySplit query).map cleanTerm).filter fun t => t ≠ "")

/-- `BM25Searcher.search`: builds the tsquery and executes
`to_tsquery('english', :tsquery)` against PostgreSQL.  The database is
abstracted by `db` (rows matching a non-empty tsquery, already ordered by
`bm25_score` descending); PostgreSQL's `to_tsquery` raises a query-syntax
error on the empty string, modelled by the `Except.error` branch — the Python
code has no guard for an empty tsquery, so the error propagates out of
`search`. -/
def bm25Search (db : String → List Doc) (query : String) (lim : ℕ) :
    Except String (List Doc) :=
  let tsq := buildTsquery query
  if tsq = "" then Except.error "to_tsquery raised: tsquery is empty"
  else Except.ok ((db tsq).take lim)

/-! ### Cosine similarity (`vector_search.py`)

`np.linalg.norm` is the real square root of the sum of squares, so the two
similarity helpers are modelled over the reals.  The division is made
explicitly partial (`none` = an actual division by zero), so that totality of
the embedded function is exactly the division-safety of the code. -/

/-- Sum of squares of a vector (the square of `np.linalg.norm`). -/
def normSq (v : List ℚ) : ℚ := (v.map fun x => x * x).sum

/-- `np.dot` on equal-length rational vectors. -/
def dotQ (v w : List ℚ) : ℚ := (List.zipWith (· * ·) v w).sum

/-- `np.linalg.norm`: the Euclidean norm. -/
noncomputable def vecNorm (v : List ℚ) : ℝ := Real.sqrt ((normSq v : ℚ) : ℝ)

/-- `VectorSearcher._cosine_similarity`: return `0.0` when either norm is
zero, otherwise divide the dot product by the product of norms.  `none` marks
a division by zero, which the theorem shows unreachable. -/
noncomputable def cosine_similarity (v w : List ℚ) : Option ℝ :=
  if vecNorm v = 0 ∨ vecNorm w = 0 then some 0
  else if vecNorm v * vecNorm w = 0 then none
  else some (((dotQ v w : ℚ) : ℝ) / (vecNorm v * vecNorm w))

/-- `VectorSearcher._fast_cosine_similarity`: same guard and formula as
`_cosine_similarity` (the NumPy-vectorised variant computes the identical
quantities). -/
noncomputable def fast_cosine_similarity (v w : List ℚ) : Option ℝ :=
  if vecNorm v = 0 ∨ vecNorm w = 0 then some 0
  else if vecNorm v * vecNorm w = 0 then none
  else some (((dotQ v w : ℚ) : ℝ) / (vecNorm v * vecNorm w))

/-! ### Citation string formatting (`citation.py`) -/

/-- The fields `_format_citation_string` reads from the citation dictionary.
`year` is modelled as the already-rendered string (the code interpolates the
value, defaulting to `"n.d."`); an absent or `None` DOI is the empty string
(falsy in the `if doi:` test). -/
structure CitationInfo where
  authors : List String
  title : String
  year : String
  venue : String
  doi : String
deriving DecidableEq

/-- `CitationFormatter._format_citation_string`: per-style author rendering
and citation template, matching the source branch for branch. -/
def formatCitationString (c : CitationInfo) (style : String) : String :=
  if style = "apa" then
    let author_str :=
      match c.authors with
      | [] => "Unknown Author"
      | [a] => a
      | [a, b] => a ++ " & " ++ b
      | a :: _ => a ++ " et al."
    let base := author_str ++ " (" ++ c.year ++ "). " ++ c.title ++ ". " ++ c.venue ++ "."
    if c.doi ≠ "" then base ++ " https://doi.org/" ++ c.doi else base
  else if style = "ieee" then
    let author_str :=
      match c.authors with
      | [] => "Unknown Author"
      | [a] => a
      | a :: _ => a ++ " et al."
    let base := author_str ++ ", \"" ++ c.title ++ ",\" " ++ c.venue ++ ", " ++ c.year ++ "."
    if c.doi ≠ "" then base ++ " doi: " ++ c.doi else base
  else if style = "mla" then
    let author_str :=
      match c.authors with
      | [] => "Unknown Author"
      | a :: _ => a
    author_str ++ ". \"" ++ c.title ++ ".\" " ++ c.venue ++ ", " ++ c.year ++ "."
  else
    c.title ++ " (" ++ c.year ++ ")"

/-- The author summary as the specification states it, for every style:
one author renders in full, two as `"A & B"`, three or more as `"A et al."`
(the code's `"Unknown Author"` fallback kept for the empty list). -/
def specAuthorSummary : List String → String
  | [] => "Unknown Author"
  | [a] => a
  | [a, b] => a ++ " & " ++ b
  | a :: _ => a ++ " et al."

/-- The citation string as the specification would have it: the code's style
templates, but with the style-independent `specAuthorSummary` rule in all
three named styles. -/
def formatCitationStringSpec (c : CitationInfo) (style : String) : String :=
  if style = "apa" then
    let base :=
      specAuthorSummary c.authors ++ " (" ++ c.year ++ "). " ++ c.title ++ ". " ++ c.venue ++ "."
    if c.doi ≠ "" then base ++ " https://doi.org/" ++ c.doi else base
  else if style = "ieee" then
    let base :=
      specAuthorSummary c.authors ++ ", \"" ++ c.title ++ ",\" " ++ c.venue ++ ", " ++ c.year ++ "."
    if c.doi ≠ "" then base ++ " doi: " ++ c.doi else base
  else if style = "mla" then
    specAuthorSummary c.authors ++ ". \"" ++ c.title ++ ".\" " ++ c.venue ++ ", " ++ c.year ++ "."
  else
    c.title ++ " (" ++ c.year ++ ")"

/-! ### Orchestrator (`hybrid_search.py`) and result formatting (`citation.py`) -/

/-- The `relevance_scores` sub-dictionary built by
`CitationFormatter._format_single_result`. -/
structure RelScores where
  bm25 : ℚ
  vector : ℚ
  rrf : ℚ
  rerank : ℚ
  final : ℚ
deriving DecidableEq

/-- A formatted citation, restricted to the fields the claims read. -/
structure Citation where
  citation_id : ℕ
  chunk_id : String
  relevance_scores : RelScores
deriving DecidableEq

/-- `_format_single_result`: each score defaults to `0.0` when absent; the
`final` entry falls back to `rerank_score`, then `rrf_score`, then `0.0`. -/
def formatSingleResult (idx : ℕ) (d : Doc) : Citation :=
  { citation_id := idx
    chunk_id := d.chunk_id
    relevance_scores :=
      { bm25 := d.bm25_score.getD 0
        vector := d.vector_score.getD 0
        rrf := d.rrf_score.getD 0
        rerank := d.rerank_score.getD 0
        final := d.final_score.getD (d.rerank_score.getD (d.rrf_score.getD 0)) } }

/-- `CitationFormatter.format_results`: `enumerate(results, start=idx)` over
the result list. -/
def formatResults (idx : ℕ) : List Doc → List Citation
  | [] => []
  | d :: rest => formatSingleResult idx d :: formatResults (idx + 1) rest

/-- `CitationFormatter.create_answer_with_citations`: formats the first
`max_citations` results, citation ids starting at 1. -/
def createAnswerCitations (results : List Doc) (max_citations : ℕ) : List Citation :=
  formatResults 1 (results.take max_citations)

/-- The response fields of `HybridSearchEngine.search` the claims read. -/
structure SearchResponse where
  citations : List Citation
  total_results : ℕ
  returned_results : ℕ
deriving DecidableEq

/-- The `boost_fields` dictionary the orchestrator passes to
`rerank_with_metadata`. -/
def orchestratorBoosts : Boosts :=
  { citations_count := some (1 / 10)
    is_open_access := some (1 / 20)
    publication_year := some (1 / 20) }

/-- `HybridSearchEngine.search`, parametrised over the two searchers' outputs
(`bm25_results`, `vector_results`) and the `use_reranker` flag (set to `false`
by `__init__` when reranker initialisation fails): RRF-fuse with `k = 60`,
keep the first 80 candidates, rerank (or, without a reranker, truncate to
`top_k`), and format the final results into citations. -/
def hybridSearch (score : String → String → ℚ) (log1p : ℚ → ℚ)
    (use_reranker : Bool) (query : String)
    (bm25_results vector_results : List Doc) (top_k : ℕ) : SearchResponse :=
  let fused := reciprocal_rank_fusion [bm25_results, vector_results] 60
  let candidates := fused.take 80
  let finalResults :=
    if use_reranker then
      rerank_with_metadata score log1p query candidates top_k (some orchestratorBoosts)
    else candidates.take top_k
  { citations := createAnswerCitations finalResults top_k
    total_results := fused.length
    returned_results := finalResults.length }

/-! ### Lemmas about the fusion state -/

theorem scoreOf_upsertScore (cid c : String) (v : ℚ) (d : Doc) (st : List FusionEntry) :
    scoreOf (upsertScore cid v d st) c = scoreOf st c + (if c = cid then v else 0) := by
  induction st with
  | nil =>
    simp only [upsertScore, scoreOf, add_zero, zero_add]
    by_cases h : c = cid
    · subst h; simp
    · rw [if_neg fun h' => h h'.symm, if_neg h]
  | cons e rest ih =>
    obtain ⟨c0, x0, d0⟩ := e
    by_cases h0 : c0 = cid
    · subst h0
      simp only [upsertScore, if_pos rfl, scoreOf]
      by_cases h : c0 = c
      · subst h; simp; ring
      · simp only [if_neg h, if_neg (Ne.symm h), add_zero, zero_add]
    · simp only [upsertScore, if_neg h0, scoreOf, ih]
      ring

theorem scoreOf_processListAux (k : ℕ) (c : String) :
    ∀ (l : List Doc) (rank : ℕ) (st : List FusionEntry),
      scoreOf (processListAux k rank l st) c =
        scoreOf st c + listContributionAux k c rank l
  | [], _, _ => by simp [processListAux, listContributionAux]
  | d :: rest, rank, st => by
    rw [processListAux, scoreOf_processListAux k c rest (rank + 1),
      scoreOf_upsertScore, listContributionAux]
    by_cases h : d.chunk_id = c
    · subst h; simp; ring
    · simp only [if_neg h, if_neg (Ne.symm h), add_zero, zero_add]

theorem scoreOf_foldl (k : ℕ) (c : String) :
    ∀ (lists : List (List Doc)) (st : List FusionEntry),
      scoreOf (lists.foldl (processList k) st) c =
        scoreOf st c + specFusionScore k lists c
  | [], _ => by simp [specFusionScore]
  | l :: ls, st => by
    rw [List.foldl_cons, scoreOf_foldl k c ls, processList, scoreOf_processListAux]
    simp [specFusionScore]
    ring

theorem keysOf_upsertScore (cid : String) (v : ℚ) (d : Doc) :
    ∀ st : List FusionEntry,
      keysOf (upsertScore cid v d st) =
        if cid ∈ keysOf st then keysOf st else keysOf st ++ [cid]
  | [] => by simp [upsertScore, keysOf]
  | (c0, x0, d0) :: rest => by
    by_cases h0 : c0 = cid
    · subst h0
      simp [upsertScore, keysOf]
    · rw [upsertScore, if_neg h0]
      have ih := keysOf_upsertScore cid v d rest
      simp only [keysOf, List.map_cons] at ih ⊢
      rw [ih]
      by_cases hm : cid ∈ List.map (fun e : FusionEntry => e.1) rest
      · rw [if_pos hm, if_pos (List.mem_cons_of_mem _ hm)]
      · rw [if_neg hm, if_neg (by simp [List.mem_cons, hm, (Ne.symm h0 : cid ≠ c0)]),
          List.cons_append]

theorem mem_keysOf_upsertScore (cid c : String) (v : ℚ) (d : Doc) (st : List FusionEntry) :
    c ∈ keysOf (upsertScore cid v d st) ↔ c ∈ keysOf st ∨ c = cid := by
  rw [keysOf_upsertScore]
  by_cases hm : cid ∈ keysOf st
  · rw [if_pos hm]
    constructor
    · exact Or.inl
    · rintro (h | rfl)
      · exact h
      · exact hm
  · rw [if_neg hm]
    simp [List.mem_append]

theorem nodup_keysOf_upsertScore (cid : String) (v : ℚ) (d : Doc) (st : List FusionEntry)
    (h : (keysOf st).Nodup) : (keysOf (upsertScore cid v d st)).Nodup := by
  rw [keysOf_upsertScore]
  by_cases hm : cid ∈ keysOf st
  · rwa [if_pos hm]
  · rw [if_neg hm]
    simp [List.nodup_append, h, hm]

theorem mem_keysOf_processListAux (k : ℕ) (c : String) :
    ∀ (l : List Doc) (rank : ℕ) (st : List FusionEntry),
      c ∈ keysOf (processListAux k rank l st) ↔
        c ∈ keysOf st ∨ c ∈ l.map Doc.chunk_id
  | [], _, _ => by simp [processListAux]
  | d :: rest, rank, st => by
    rw [processListAux, mem_keysOf_processListAux k c rest (rank + 1),
      mem_keysOf_upsertScore]
    simp only [List.map_cons, List.mem_cons]
    tauto

theorem nodup_keysOf_processListAux (k : ℕ) :
    ∀ (l : List Doc) (rank : ℕ) (st : List FusionEntry),
      (keysOf st).Nodup → (keysOf (processListAux k rank l st)).Nodup
  | [], _, _, h => h
  | d :: rest, rank, st, h =>
    nodup_keysOf_processListAux k rest (rank + 1) _
      (nodup_keysOf_upsertScore _ _ _ _ h)

theorem mem_keysOf_foldl (k : ℕ) (c : String) :
    ∀ (lists : List (List Doc)) (st : List FusionEntry),
      c ∈ keysOf (lists.foldl (processList k) st) ↔
        c ∈ keysOf st ∨ c ∈ lists.flatten.map Doc.chunk_id
  | [], _ => by simp
  | l :: ls, st => by
    rw [List.foldl_cons, mem_keysOf_foldl k c ls, processList, mem_keysOf_processListAux]
    simp only [List.flatten_cons, List.map_append, List.mem_append]
    tauto

theorem nodup_keysOf_foldl (k : ℕ) :
    ∀ (lists : List (List Doc)) (st : List FusionEntry),
      (keysOf st).Nodup → (keysOf (lists.foldl (processList k) st)).Nodup
  | [], _, h => h
  | l :: ls, st, h =>
    nodup_keysOf_foldl k ls _ (nodup_keysOf_processListAux k l 1 st h)

theorem entryDoc_upsertScore (cid c : String) (v : ℚ) (d : Doc) :
    ∀ st : List FusionEntry,
      entryDoc (upsertScore cid v d st) c =
        (entryDoc st c).or (if c = cid then some d else none)
  | [] => by
    simp only [upsertScore, entryDoc, Option.none_or]
    by_cases h : cid = c
    · subst h; simp
    · rw [if_neg h, if_neg (Ne.symm h)]
  | (c0, x0, d0) :: rest => by
    by_cases h0 : c0 = cid
    · subst h0
      rw [upsertScore, if_pos rfl]
      simp only [entryDoc]
      by_cases h : c0 = c
      · simp only [if_pos h]
        rfl
      · simp only [if_neg h]
        rw [if_neg (Ne.symm h), Option.or_none]
    · rw [upsertScore, if_neg h0]
      simp only [entryDoc]
      by_cases h : c0 = c
      · simp only [if_pos h]
        rfl
      · simp only [if_neg h]
        rw [entryDoc_upsertScore cid c v d rest]

theorem firstDocWith_append (cid : String) :
    ∀ l1 l2 : List Doc,
      firstDocWith cid (l1 ++ l2) = (firstDocWith cid l1).or (firstDocWith cid l2)
  | [], l2 => by simp [firstDocWith]
  | d :: rest, l2 => by
    rw [List.cons_append]
    simp only [firstDocWith]
    by_cases h : d.chunk_id = cid
    · simp only [if_pos h]
      rfl
    · simp only [if_neg h]
      rw [firstDocWith_append cid rest l2]

theorem entryDoc_processListAux (k : ℕ) (c : String) :
    ∀ (l : List Doc) (rank : ℕ) (st : List FusionEntry),
      entryDoc (processListAux k rank l st) c =
        (entryDoc st c).or (firstDocWith c l)
  | [], _, _ => by simp [processListAux, firstDocWith, Option.or_none]
  | d :: rest, rank, st => by
    rw [processListAux, entryDoc_processListAux k c rest (rank + 1), entryDoc_upsertScore,
      Option.or_assoc]
    simp only [firstDocWith]
    congr 1
    by_cases h : d.chunk_id = c
    · rw [if_pos h.symm, if_pos h]
      rfl
    · rw [if_neg (Ne.symm h), Option.none_or, if_neg h]

theorem entryDoc_foldl (k : ℕ) (c : String) :
    ∀ (lists : List (List Doc)) (st : List FusionEntry),
      entryDoc (lists.foldl (processList k) st) c =
        (entryDoc st c).or (firstDocWith c lists.flatten)
  | [], _ => by simp [firstDocWith, Option.or_none]
  | l :: ls, st => by
    rw [List.foldl_cons, entryDoc_foldl k c ls, processList, entryDoc_processListAux,
      List.flatten_cons, firstDocWith_append, Option.or_assoc]

theorem wf_upsertScore (cid : String) (v : ℚ) (d : Doc) (hd : d.chunk_id = cid) :
    ∀ st : List FusionEntry, (∀ e ∈ st, e.2.2.chunk_id = e.1) →
      ∀ e ∈ upsertScore cid v d st, e.2.2.chunk_id = e.1
  | [], _, e, he => by
    simp only [upsertScore, List.mem_singleton] at he
    subst he; exact hd
  | (c0, x0, d0) :: rest, h, e, he => by
    by_cases h0 : c0 = cid
    · rw [upsertScore, if_pos h0] at he
      rcases List.mem_cons.mp he with rfl | hmem
      · exact h (c0, x0, d0) (List.mem_cons_self _ _)
      · exact h e (List.mem_cons_of_mem _ hmem)
    · rw [upsertScore, if_neg h0] at he
      rcases List.mem_cons.mp he with rfl | hmem
      · exact h (c0, x0, d0) (List.mem_cons_self _ _)
      · exact wf_upsertScore cid v d hd rest
          (fun e' he' => h e' (List.mem_cons_of_mem _ he')) e hmem

theorem wf_processListAux (k : ℕ) :
    ∀ (l : List Doc) (rank : ℕ) (st : List FusionEntry),
      (∀ e ∈ st, e.2.2.chunk_id = e.1) →
      ∀ e ∈ processListAux k rank l st, e.2.2.chunk_id = e.1
  | [], _, _, h => h
  | d :: rest, rank, st, h =>
    wf_processListAux k rest (rank + 1) _ (wf_upsertScore _ _ _ rfl st h)

theorem wf_foldl (k : ℕ) :
    ∀ (lists : List (List Doc)) (st : List FusionEntry),
      (∀ e ∈ st, e.2.2.chunk_id = e.1) →
      ∀ e ∈ lists.foldl (processList k) st, e.2.2.chunk_id = e.1
  | [], _, h => h
  | l :: ls, st, h => wf_foldl k ls _ (wf_processListAux k l 1 st h)

theorem entryDoc_eq_of_mem :
    ∀ st : List FusionEntry, (keysOf st).Nodup → ∀ e ∈ st, entryDoc st e.1 = some e.2.2
  | [], _, e, he => absurd he (List.not_mem_nil e)
  | f :: rest, h, e, he => by
    obtain ⟨hnm, hrest⟩ : f.1 ∉ keysOf rest ∧ (keysOf rest).Nodup := by
      simpa [keysOf] using h
    simp only [entryDoc]
    rcases List.mem_cons.mp he with rfl | hmem
    · rw [if_pos rfl]
    · have hne : f.1 ≠ e.1 := fun hEq => hnm (by
        rw [hEq]
        exact List.mem_map_of_mem _ hmem)
      rw [if_neg hne]
      exact entryDoc_eq_of_mem rest hrest e hmem

theorem scoreOf_eq_zero_of_notMem :
    ∀ (st : List FusionEntry) (c : String), c ∉ keysOf st → scoreOf st c = 0
  | [], _, _ => rfl
  | f :: rest, c, h => by
    obtain ⟨h1, h2⟩ : ¬c = f.1 ∧ c ∉ keysOf rest := by
      simpa [keysOf, not_or] using h
    simp only [scoreOf]
    rw [if_neg (Ne.symm h1), scoreOf_eq_zero_of_notMem rest c h2, add_zero]

theorem entry_val_eq_scoreOf :
    ∀ st : List FusionEntry, (keysOf st).Nodup → ∀ e ∈ st, e.2.1 = scoreOf st e.1
  | [], _, e, he => absurd he (List.not_mem_nil e)
  | f :: rest, h, e, he => by
    obtain ⟨hnm, hrest⟩ : f.1 ∉ keysOf rest ∧ (keysOf rest).Nodup := by
      simpa [keysOf] using h
    simp only [scoreOf]
    rcases List.mem_cons.mp he with rfl | hmem
    · rw [if_pos rfl, scoreOf_eq_zero_of_notMem rest e.1 hnm, add_zero]
    · have hne : f.1 ≠ e.1 := fun hEq => hnm (by
        rw [hEq]
        exact List.mem_map_of_mem _ hmem)
      rw [if_neg hne, entry_val_eq_scoreOf rest hrest e hmem, zero_add]

/-! ### Characterization of the fused output -/

theorem rrf_mem_iff (lists : List (List Doc)) (k : ℕ) (d : Doc) :
    d ∈ reciprocal_rank_fusion lists k ↔
      ∃ e ∈ lists.foldl (processList k) [], finalizeEntry e = d := by
  unfold reciprocal_rank_fusion
  rw [List.mem_insertionSort, List.mem_map]

theorem rrf_elem_spec (lists : List (List Doc)) (k : ℕ) (d : Doc)
    (hd : d ∈ reciprocal_rank_fusion lists k) :
    ∃ d0, firstDocWith d.chunk_id lists.flatten = some d0 ∧
      d = { d0 with
        rrf_score := some (specFusionScore k lists d.chunk_id)
        bm25_score := some (d0.bm25_score.getD 0)
        vector_score := some (d0.vector_score.getD 0) } := by
  obtain ⟨e, he, hfe⟩ := (rrf_mem_iff lists k d).mp hd
  have hnodup := nodup_keysOf_foldl k lists [] (by simp [keysOf])
  have hwf : e.2.2.chunk_id = e.1 := wf_foldl k lists [] (by simp) e he
  have hcid : d.chunk_id = e.1 := by rw [← hfe]; exact hwf
  have hdoc : entryDoc (lists.foldl (processList k) []) e.1 = some e.2.2 :=
    entryDoc_eq_of_mem _ hnodup e he
  have hfirst : firstDocWith e.1 lists.flatten = some e.2.2 := by
    have h2 := entryDoc_foldl k e.1 lists []
    rw [hdoc] at h2
    simpa [entryDoc, Option.none_or] using h2.symm
  have hval : e.2.1 = specFusionScore k lists e.1 := by
    have h3 := entry_val_eq_scoreOf _ hnodup e he
    rw [scoreOf_foldl] at h3
    simpa [scoreOf] using h3
  refine ⟨e.2.2, by rw [hcid]; exact hfirst, ?_⟩
  have hcid' : (finalizeEntry e).chunk_id = e.1 := hwf
  rw [← hfe, hcid', ← hval]
  rfl

theorem rrf_sorted (lists : List (List Doc)) (k : ℕ) :
    (reciprocal_rank_fusion lists k).Sorted (keyGe rrfVal) :=
  List.sorted_insertionSort _ _

theorem rrf_chunkIds_perm (lists : List (List Doc)) (k : ℕ) :
    ((reciprocal_rank_fusion lists k).map Doc.chunk_id).Perm
      (keysOf (lists.foldl (processList k) [])) := by
  have hwf := wf_foldl k lists [] (by simp)
  have hmap : ((lists.foldl (processList k) []).map finalizeEntry).map Doc.chunk_id
      = keysOf (lists.foldl (processList k) []) := by
    rw [List.map_map]
    exact List.map_congr_left fun e he => hwf e he
  have hperm := (List.perm_insertionSort (keyGe rrfVal)
    ((lists.foldl (processList k) []).map finalizeEntry)).map Doc.chunk_id
  rw [hmap] at hperm
  exact hperm

theorem rrf_chunkIds_nodup (lists : List (List Doc)) (k : ℕ) :
    ((reciprocal_rank_fusion lists k).map Doc.chunk_id).Nodup :=
  (rrf_chunkIds_perm lists k).nodup_iff.mpr (nodup_keysOf_foldl k lists [] (by simp [keysOf]))

theorem rrf_chunkIds_mem (lists : List (List Doc)) (k : ℕ) (c : String) :
    c ∈ (reciprocal_rank_fusion lists k).map Doc.chunk_id ↔
      c ∈ lists.flatten.map Doc.chunk_id := by
  rw [(rrf_chunkIds_perm lists k).mem_iff, mem_keysOf_foldl]
  simp [keysOf]

theorem rrf_length (lists : List (List Doc)) (k : ℕ) :
    (reciprocal_rank_fusion lists k).length
      = (lists.flatten.map Doc.chunk_id).dedup.length := by
  have h1 : ((reciprocal_rank_fusion lists k).map Doc.chunk_id).Perm
      ((lists.flatten.map Doc.chunk_id).dedup) := by
    rw [List.perm_ext_iff_of_nodup (rrf_chunkIds_nodup lists k) (List.nodup_dedup _)]
    intro a
    rw [rrf_chunkIds_mem, List.mem_dedup]
  have h2 := h1.length_eq
  simpa using h2

theorem firstDocWith_mem (cid : String) :
    ∀ (l : List Doc) (d0 : Doc), firstDocWith cid l = some d0 → d0 ∈ l
  | [], d0, h => by simp [firstDocWith] at h
  | d :: rest, d0, h => by
    simp only [firstDocWith] at h
    by_cases hc : d.chunk_id = cid
    · rw [if_pos hc] at h
      exact (Option.some_inj.mp h) ▸ List.mem_cons_self _ _
    · rw [if_neg hc] at h
      exact List.mem_cons_of_mem _ (firstDocWith_mem cid rest d0 h)

/-! ### Lemmas about the reranker -/

theorem rerank_sorted (score : String → String → ℚ) (query : String)
    (documents : List Doc) (top_k : ℕ) :
    (rerank score query documents top_k).Sorted (keyGe rerankVal) := by
  unfold rerank rerankLocal
  split
  · exact List.sorted_nil
  · exact List.Pairwise.sublist (List.take_sublist _ _) (List.sorted_insertionSort _ _)

theorem rerank_with_metadata_mem_some (score : String → String → ℚ) (log1p : ℚ → ℚ)
    (query : String) (documents : List Doc) (top_k : ℕ) (b : Boosts) (d : Doc)
    (hd : d ∈ rerank_with_metadata score log1p query documents top_k (some b)) :
    ∃ d0 ∈ rerank score query documents (top_k * 2), d = applyBoost log1p b d0 := by
  simp only [rerank_with_metadata] at hd
  have h1 := List.mem_of_mem_take hd
  rw [List.mem_insertionSort] at h1
  obtain ⟨d0, hd0, hEq⟩ := List.mem_map.mp h1
  exact ⟨d0, hd0, hEq.symm⟩

theorem rerank_with_metadata_final_eq (score : String → String → ℚ) (log1p : ℚ → ℚ)
    (query : String) (documents : List Doc) (top_k : ℕ) (b : Boosts) (d : Doc)
    (hd : d ∈ rerank_with_metadata score log1p query documents top_k (some b)) :
    d.final_score = some (rerankVal d + boostScore log1p b d) := by
  obtain ⟨d0, _, rfl⟩ := rerank_with_metadata_mem_some score log1p query documents top_k b d hd
  rfl

theorem rerank_with_metadata_chunkId_mem (score : String → String → ℚ) (log1p : ℚ → ℚ)
    (query : String) (documents : List Doc) (top_k : ℕ) (bf : Option Boosts) (d : Doc)
    (hd : d ∈ rerank_with_metadata score log1p query documents top_k bf) :
    d.chunk_id ∈ (rerank score query documents (top_k * 2)).map Doc.chunk_id := by
  cases bf with
  | none =>
    simp only [rerank_with_metadata] at hd
    exact List.mem_map_of_mem _ (List.mem_of_mem_take hd)
  | some b =>
    obtain ⟨d0, hd0, rfl⟩ :=
      rerank_with_metadata_mem_some score log1p query documents top_k b d hd
    show d0.chunk_id ∈ _
    exact List.mem_map_of_mem _ hd0

/-! ### Lemmas about result formatting -/

theorem mem_formatResults :
    ∀ (i : ℕ) (l : List Doc) (c : Citation), c ∈ formatResults i l →
      ∃ j d, d ∈ l ∧ c = formatSingleResult j d
  | _, [], c, hc => absurd hc (List.not_mem_nil c)
  | i, d :: rest, c, hc => by
    simp only [formatResults, List.mem_cons] at hc
    rcases hc with rfl | hc
    · exact ⟨i, d, List.mem_cons_self _ _, rfl⟩
    · obtain ⟨j, d', hd', rfl⟩ := mem_formatResults (i + 1) rest c hc
      exact ⟨j, d', List.mem_cons_of_mem _ hd', rfl⟩

theorem formatResults_length :
    ∀ (i : ℕ) (l : List Doc), (formatResults i l).length = l.length
  | _, [] => rfl
  | i, _ :: rest => by
    simp only [formatResults, List.length_cons, formatResults_length (i + 1) rest]

theorem formatResults_pairwise (R : Doc → Doc → Prop) (S : Citation → Citation → Prop)
    (hRS : ∀ (i j : ℕ) (a b : Doc), R a b → S (formatSingleResult i a) (formatSingleResult j b)) :
    ∀ (i : ℕ) (l : List Doc), l.Pairwise R → (formatResults i l).Pairwise S
  | _, [], _ => List.Pairwise.nil
  | i, d :: rest, h => by
    obtain ⟨h1, h2⟩ := List.pairwise_cons.mp h
    refine List.Pairwise.cons ?_ (formatResults_pairwise R S hRS (i + 1) rest h2)
    intro c hc
    obtain ⟨j, d', hd', rfl⟩ := mem_formatResults (i + 1) rest c hc
    exact hRS i j d d' (h1 d' hd')

/-! ### Concrete inputs used by witnesses and counterexamples -/

def docA1 : Doc := { chunk_id := "a1" }

def docA2 : Doc := { chunk_id := "a2" }

def docT : Doc := { chunk_id := "t" }

def docTFused : Doc :=
  { chunk_id := "t", bm25_score := some 0, vector_score := some 0, rrf_score := some (1 / 61) }

def docTFusedAB : Doc :=
  { chunk_id := "t", bm25_score := some 0, vector_score := some 0,
    rrf_score := some (1 / 63 + 1 / 61) }

def docLex : Doc := { chunk_id := "c", bm25_score := some 2 }

def docVec : Doc := { chunk_id := "c", vector_score := some 3 }

def docLexFused : Doc :=
  { chunk_id := "c", bm25_score := some 2, vector_score := some 0, rrf_score := some (2 / 61) }

/-! ### Claim theorems -/

/-- C1: `reciprocal_rank_fusion` assigns every fused candidate the fusion
score stated by the spec — the sum, over the source lists, of `1 / (k + rank)`
at each 1-based rank where the candidate occurs, with zero contribution from
lists it is absent from (`specFusionScore`) — and returns the fused
candidates ordered by fusion score descending; in particular a document at
rank 3 in list A and rank 1 in list B with `k = 60` gets score
`1/63 + 1/61`. -/
theorem rrf_assigns_reciprocal_rank_sum :
    (∀ (results_lists : List (List Doc)) (k : ℕ) (d : Doc),
        d ∈ reciprocal_rank_fusion results_lists k →
          d.rrf_score = some (specFusionScore k results_lists d.chunk_id))
    ∧ (∀ (results_lists : List (List Doc)) (k : ℕ),
        (reciprocal_rank_fusion results_lists k).Sorted (keyGe rrfVal))
    ∧ (∃ d ∈ reciprocal_rank_fusion [[docA1, docA2, docT], [docT]] 60,
        d.chunk_id = "t" ∧ d.rrf_score = some (1 / 63 + 1 / 61)) := by
  refine ⟨fun lists k d hd => ?_, fun lists k => rrf_sorted lists k, ?_⟩
  · obtain ⟨d0, _, hform⟩ := rrf_elem_spec lists k d hd
    conv_lhs => rw [hform]
  · refine ⟨docTFusedAB, ?_, rfl, rfl⟩
    norm_num [reciprocal_rank_fusion, processList, processListAux, upsertScore, finalizeEntry,
      List.insertionSort, List.orderedInsert, keyGe, rrfVal, docA1, docA2, docT, docTFusedAB]

theorem rrf_assigns_reciprocal_rank_sum_witness :
    docTFused ∈ reciprocal_rank_fusion [[docT]] 60 ∧
      docTFused.rrf_score = some (specFusionScore 60 [[docT]] docTFused.chunk_id) :=
  ⟨by norm_num [reciprocal_rank_fusion, processList, processListAux, upsertScore, finalizeEntry,
      List.insertionSort, List.orderedInsert, docT, docTFused],
   rrf_assigns_reciprocal_rank_sum.1 [[docT]] 60 docTFused (by
      norm_num [reciprocal_rank_fusion, processList, processListAux, upsertScore, finalizeEntry,
        List.insertionSort, List.orderedInsert, docT, docTFused])⟩

/-- C2 counterexample: fusing a lexical list and a vector list that share
`chunk_id` "c" keeps the lexical record and defaults its `vector_score` to
`0.0`; the fused record does not carry the vector list's `vector_score = 3.0`,
refuting the claim that both per-signal scores are non-defaulted. -/
theorem rrf_duplicate_drops_vector_score_cex :
    (reciprocal_rank_fusion [[docLex], [docVec]] 60).map Doc.vector_score = [some 0]
    ∧ (reciprocal_rank_fusion [[docLex], [docVec]] 60).map Doc.vector_score ≠ [some 3] := by
  refine ⟨?_, ?_⟩ <;>
    norm_num [reciprocal_rank_fusion, processList, processListAux, upsertScore, finalizeEntry,
      List.insertionSort, List.orderedInsert, docLex, docVec]

/-- C2 (amended): the fused output contains each `chunk_id` of the union of
the input lists exactly once (no duplicates, membership equal to the union,
one entry per distinct `chunk_id`), and a candidate occurring in several
lists is emitted as the first record seen for it, with any missing
`bm25_score`/`vector_score` keys defaulted to `0.0` — not as a field-wise
union of its per-signal scores. -/
theorem rrf_output_union_dedup :
    ∀ (results_lists : List (List Doc)) (k : ℕ),
      ((reciprocal_rank_fusion results_lists k).map Doc.chunk_id).Nodup
      ∧ (∀ c, c ∈ (reciprocal_rank_fusion results_lists k).map Doc.chunk_id ↔
          c ∈ results_lists.flatten.map Doc.chunk_id)
      ∧ (reciprocal_rank_fusion results_lists k).length
          = (results_lists.flatten.map Doc.chunk_id).dedup.length
      ∧ ∀ d ∈ reciprocal_rank_fusion results_lists k,
          ∃ d0, firstDocWith d.chunk_id results_lists.flatten = some d0 ∧
            d = { d0 with
              rrf_score := some (specFusionScore k results_lists d.chunk_id)
              bm25_score := some (d0.bm25_score.getD 0)
              vector_score := some (d0.vector_score.getD 0) } :=
  fun lists k =>
    ⟨rrf_chunkIds_nodup lists k, rrf_chunkIds_mem lists k, rrf_length lists k,
      fun d hd => rrf_elem_spec lists k d hd⟩

theorem rrf_output_union_dedup_witness :
    docLexFused ∈ reciprocal_rank_fusion [[docLex], [docVec]] 60 ∧
      ∃ d0, firstDocWith docLexFused.chunk_id [[docLex], [docVec]].flatten = some d0 ∧
        docLexFused = { d0 with
          rrf_score := some (specFusionScore 60 [[docLex], [docVec]] docLexFused.chunk_id)
          bm25_score := some (d0.bm25_score.getD 0)
          vector_score := some (d0.vector_score.getD 0) } :=
  ⟨by norm_num [reciprocal_rank_fusion, processList, processListAux, upsertScore, finalizeEntry,
      List.insertionSort, List.orderedInsert, docLex, docVec, docLexFused],
   (rrf_output_union_dedup [[docLex], [docVec]] 60).2.2.2 docLexFused (by
      norm_num [reciprocal_rank_fusion, processList, processListAux, upsertScore, finalizeEntry,
        List.insertionSort, List.orderedInsert, docLex, docVec, docLexFused])⟩

def docB5 : Doc := { chunk_id := "b", content := "x" }

def docA5 : Doc := { chunk_id := "a", content := "y" }

def boostsOA : Boosts := { is_open_access := some 1 }

def docB5Out : Doc := { chunk_id := "b", content := "x", rerank_score := some 1, final_score := some 1 }

def docA5Out : Doc := { chunk_id := "a", content := "y", rerank_score := some 1, final_score := some 1 }

/-- C5 counterexample: with a constant pairwise score, both candidates tie on
`final_score = 1`, and the output keeps the stable input order
`["b", "a"]` even though `"a" < "b"`: ties are NOT broken by ascending
`chunk_id`. -/
theorem rerank_tie_keeps_input_order_cex :
    (rerank_with_metadata (fun _ _ => 1) id "q" [docB5, docA5] 2 (some boostsOA)).map
        Doc.chunk_id = ["b", "a"]
    ∧ (rerank_with_metadata (fun _ _ => 1) id "q" [docB5, docA5] 2 (some boostsOA)).map
        Doc.final_score = [some 1, some 1]
    ∧ "a".data < "b".data := by
  refine ⟨?_, ?_, by decide⟩ <;>
    norm_num [rerank_with_metadata, rerank, rerankLocal, applyBoost, boostScore,
      List.insertionSort, List.orderedInsert, keyGe, rerankVal, finalVal,
      docB5, docA5, boostsOA]

/-- C5 (amended): the reranked output is ordered by `final_score` descending
when boosts are supplied (by `rerank_score` descending without boosts);
candidates with equal `final_score` keep their relative order from the
rerank stage — Python's stable sort — rather than being reordered by
ascending `chunk_id`. -/
theorem rerank_with_metadata_sorted :
    ∀ (score : String → String → ℚ) (log1p : ℚ → ℚ) (query : String)
      (documents : List Doc) (top_k : ℕ) (b : Boosts),
      (rerank_with_metadata score log1p query documents top_k (some b)).Sorted (keyGe finalVal)
      ∧ (rerank_with_metadata score log1p query documents top_k none).Sorted
          (keyGe rerankVal) := by
  intro score L q docs k b
  constructor
  · simp only [rerank_with_metadata]
    exact List.Pairwise.sublist (List.take_sublist _ _) (List.sorted_insertionSort _ _)
  · simp only [rerank_with_metadata]
    exact List.Pairwise.sublist (List.take_sublist _ _) (rerank_sorted score q docs (k * 2))

def docY2050 : Doc := { chunk_id := "y", content := "c", metadata := { pub_year := some 2050 } }

def docY2050Out : Doc :=
  { chunk_id := "y", content := "c", rerank_score := some 0, final_score := some 2,
    metadata := { pub_year := some 2050 } }

def boostsYear1 : Boosts := { publication_year := some 1 }

/-- C6 counterexample: with publication-year weight `w = 1` and
`pub_year = 2050`, the recency contribution is `(2050 - 2000)/25 = 2 > w`:
the year mapping is not clamped to `[0, 1]`, so the contribution can exceed
`w` (and is negative for years before 2000). -/
theorem recency_boost_not_clamped_cex :
    (rerank_with_metadata (fun _ _ => 0) id "q" [docY2050] 1 (some boostsYear1)).map
        Doc.final_score = [some 2]
    ∧ ¬ (∀ d ∈ rerank_with_metadata (fun _ _ => 0) id "q" [docY2050] 1 (some boostsYear1),
          finalVal d - rerankVal d ≤ 1) := by
  have hout : rerank_with_metadata (fun _ _ => 0) id "q" [docY2050] 1 (some boostsYear1)
      = [docY2050Out] := by
    norm_num [rerank_with_metadata, rerank, rerankLocal, applyBoost, boostScore,
      List.insertionSort, List.orderedInsert, docY2050, docY2050Out, boostsYear1]
  rw [hout]
  refine ⟨rfl, fun h => ?_⟩
  have h2 := h docY2050Out (List.mem_singleton_self _)
  norm_num [finalVal, rerankVal, docY2050Out] at h2

/-- C6 (amended): the recency contribution added to `final_score` is
`w * (year - 2000) / 25` with the year defaulting to 2000 and 2025 as the
upper reference point, with no clamping; the contribution lies between `0`
and `w` only when `w ≥ 0` and the year lies within 2000–2025. -/
theorem recency_boost_linear_unclamped :
    ∀ (score : String → String → ℚ) (log1p : ℚ → ℚ) (query : String)
      (documents : List Doc) (top_k : ℕ) (w : ℚ) (d : Doc),
      d ∈ rerank_with_metadata score log1p query documents top_k
          (some { citations_count := none, is_open_access := none,
                  publication_year := some w }) →
        d.final_score = some (rerankVal d + w * ((d.metadata.pub_year.getD 2000) - 2000) / 25)
        ∧ (0 ≤ w → 2000 ≤ d.metadata.pub_year.getD 2000 →
            d.metadata.pub_year.getD 2000 ≤ 2025 →
            rerankVal d ≤ finalVal d ∧ finalVal d ≤ rerankVal d + w) := by
  intro score L q docs k w d hd
  have hfs := rerank_with_metadata_final_eq score L q docs k _ d hd
  have hbs : boostScore L
      { citations_count := none, is_open_access := none, publication_year := some w } d
      = w * ((d.metadata.pub_year.getD 2000) - 2000) / 25 := by
    simp [boostScore]
  rw [hbs] at hfs
  refine ⟨hfs, fun hw h1 h2 => ?_⟩
  have hfv : finalVal d = rerankVal d + w * ((d.metadata.pub_year.getD 2000) - 2000) / 25 := by
    rw [finalVal, hfs]
    rfl
  constructor
  · rw [hfv]
    have h3 : 0 ≤ w * ((d.metadata.pub_year.getD 2000) - 2000) / 25 :=
      div_nonneg (mul_nonneg hw (by linarith)) (by norm_num)
    linarith
  · rw [hfv]
    have h4 : w * ((d.metadata.pub_year.getD 2000) - 2000) / 25 ≤ w := by
      rw [div_le_iff₀ (by norm_num : (0 : ℚ) < 25)]
      have h5 := mul_le_mul_of_nonneg_left
        (show (d.metadata.pub_year.getD 2000) - 2000 ≤ 25 by linarith) hw
      linarith
    linarith

def docY2020 : Doc := { chunk_id := "y", content := "c", metadata := { pub_year := some 2020 } }

def docY2020Out : Doc :=
  { chunk_id := "y", content := "c", rerank_score := some 0, final_score := some (4 / 5),
    metadata := { pub_year := some 2020 } }

theorem recency_boost_linear_unclamped_witness :
    docY2020Out ∈ rerank_with_metadata (fun _ _ => 0) id "q" [docY2020] 1
        (some { citations_count := none, is_open_access := none, publication_year := some 1 })
    ∧ docY2020Out.final_score
        = some (rerankVal docY2020Out
            + 1 * ((docY2020Out.metadata.pub_year.getD 2000) - 2000) / 25)
    ∧ rerankVal docY2020Out ≤ finalVal docY2020Out
    ∧ finalVal docY2020Out ≤ rerankVal docY2020Out + 1 := by
  have hmem : docY2020Out ∈ rerank_with_metadata (fun _ _ => 0) id "q" [docY2020] 1
      (some { citations_count := none, is_open_access := none,
              publication_year := some 1 }) := by
    norm_num [rerank_with_metadata, rerank, rerankLocal, applyBoost, boostScore,
      List.insertionSort, List.orderedInsert, docY2020, docY2020Out]
  have h := recency_boost_linear_unclamped (fun _ _ => 0) id "q" [docY2020] 1 1 docY2020Out hmem
  have hb := h.2 (by norm_num) (by norm_num [docY2020Out]) (by norm_num [docY2020Out])
  exact ⟨hmem, h.1, hb.1, hb.2⟩

def docCit3 : Doc := { chunk_id := "z", content := "c", metadata := { citations_count := some 3 } }

def boostsCit1 : Boosts := { citations_count := some 1 }

def docCit3Out : Doc :=
  { chunk_id := "z", content := "c", rerank_score := some 0, final_score := some (1 / 10),
    metadata := { citations_count := some 3 } }

/-- C7 counterexample (negation of the claim as stated): for no admissible
`log1p` value at citation count 3 — the real `math.log1p 3 = log 4 ≠ 0` —
does the citation contribution equal `w * log1p(citations)`: the code
divides the log-damped term by 10. -/
theorem citations_boost_not_undamped_cex :
    ¬ ∀ log1p : ℚ → ℚ, log1p 3 ≠ 0 →
        ∀ d ∈ rerank_with_metadata (fun _ _ => 0) log1p "q" [docCit3] 1 (some boostsCit1),
          d.final_score = some (rerankVal d + 1 * log1p 3) := by
  intro h
  have hmem : docCit3Out ∈ rerank_with_metadata (fun _ _ => 0) (fun _ => 1) "q" [docCit3] 1
      (some boostsCit1) := by
    norm_num [rerank_with_metadata, rerank, rerankLocal, applyBoost, boostScore,
      List.insertionSort, List.orderedInsert, docCit3, docCit3Out, boostsCit1]
  have h2 := h (fun _ => 1) (by norm_num) docCit3Out hmem
  norm_num [docCit3Out, rerankVal] at h2

/-- C7 (amended): with a citation-count boost of weight `w`, the
contribution added to `rerank_score` to form `final_score` is
`w * log1p(citation_count) / 10` — the log-damped term further divided
by 10, not `w * log(1 + c)` itself. -/
theorem citations_boost_log_damped :
    ∀ (score : String → String → ℚ) (log1p : ℚ → ℚ) (query : String)
      (documents : List Doc) (top_k : ℕ) (w : ℚ) (d : Doc),
      d ∈ rerank_with_metadata score log1p query documents top_k
          (some { citations_count := some w, is_open_access := none,
                  publication_year := none }) →
        d.final_score
          = some (rerankVal d + w * log1p (d.metadata.citations_count.getD 0) / 10) := by
  intro score L q docs k w d hd
  have hfs := rerank_with_metadata_final_eq score L q docs k _ d hd
  have hbs : boostScore L
      { citations_count := some w, is_open_access := none, publication_year := none } d
      = w * L (d.metadata.citations_count.getD 0) / 10 := by
    simp [boostScore]
  rw [hbs] at hfs
  exact hfs

def docCit3OutId : Doc :=
  { chunk_id := "z", content := "c", rerank_score := some 0, final_score := some (3 / 10),
    metadata := { citations_count := some 3 } }

theorem citations_boost_log_damped_witness :
    docCit3OutId ∈ rerank_with_metadata (fun _ _ => 0) id "q" [docCit3] 1
        (some { citations_count := some 1, is_open_access := none, publication_year := none })
    ∧ docCit3OutId.final_score
        = some (rerankVal docCit3OutId
            + 1 * id (docCit3OutId.metadata.citations_count.getD 0) / 10) := by
  have hmem : docCit3OutId ∈ rerank_with_metadata (fun _ _ => 0) id "q" [docCit3] 1
      (some { citations_count := some 1, is_open_access := none,
              publication_year := none }) := by
    norm_num [rerank_with_metadata, rerank, rerankLocal, applyBoost, boostScore,
      List.insertionSort, List.orderedInsert, docCit3, docCit3OutId]
  exact ⟨hmem,
    citations_boost_log_damped (fun _ _ => 0) id "q" [docCit3] 1 1 docCit3OutId hmem⟩

/-- C10: `rerank_with_metadata` only returns documents drawn from the top
`2 * top_k` of the raw rerank-score ordering: every output document's
`chunk_id` occurs among the chunk ids of `rerank ... (top_k * 2)` — the
first `2 * top_k` candidates by `rerank_score` descending — for every boosts
mapping, however large the boost contributions are; and that candidate list
itself has at most `2 * top_k` entries. -/
theorem rerank_with_metadata_within_top_2k :
    ∀ (score : String → String → ℚ) (log1p : ℚ → ℚ) (query : String)
      (documents : List Doc) (top_k : ℕ) (boost_fields : Option Boosts),
      (∀ d ∈ rerank_with_metadata score log1p query documents top_k boost_fields,
        d.chunk_id ∈ (rerank score query documents (top_k * 2)).map Doc.chunk_id)
      ∧ (rerank score query documents (top_k * 2)).length ≤ top_k * 2 := by
  intro score L q docs k bf
  refine ⟨fun d hd => rerank_with_metadata_chunkId_mem score L q docs k bf d hd, ?_⟩
  unfold rerank rerankLocal
  split
  · simp
  · exact (List.length_take_le _ _)

def docB5R : Doc := { chunk_id := "b", content := "x", rerank_score := some 1 }

theorem rerank_with_metadata_within_top_2k_witness :
    docB5R ∈ rerank_with_metadata (fun _ _ => 1) id "q" [docB5, docA5] 1 none
    ∧ docB5R.chunk_id ∈ (rerank (fun _ _ => 1) "q" [docB5, docA5] (1 * 2)).map Doc.chunk_id := by
  have hmem : docB5R ∈ rerank_with_metadata (fun _ _ => 1) id "q" [docB5, docA5] 1 none := by
    rw [rerank_with_metadata, rerank]
    rw [if_neg (by simp : ¬ (([docB5, docA5] : List Doc) = []))]
    norm_num [rerankLocal, keyGe, rerankVal, List.insertionSort, List.orderedInsert,
      docB5, docA5, docB5R]
  exact ⟨hmem,
    (rerank_with_metadata_within_top_2k (fun _ _ => 1) id "q" [docB5, docA5] 1 none).1
      docB5R hmem⟩

/-- C3 (behaviour of the code at the claimed input class): a query whose
tokens are all empty after cleaning builds the empty tsquery, and `search`
then executes `to_tsquery('english', '')`, which PostgreSQL rejects with a
query-syntax error — the call raises instead of returning an empty result
list. -/
theorem bm25Search_empty_tokens_raises :
    ∀ (db : String → List Doc) (lim : ℕ) (query : String),
      (∀ t ∈ pySplit query, cleanTerm t = "") →
      buildTsquery query = ""
      ∧ bm25Search db query lim = Except.error "to_tsquery raised: tsquery is empty" := by
  intro db lim query h
  have hq : buildTsquery query = "" := by
    unfold buildTsquery
    have hf : ((pySplit query).map cleanTerm).filter (fun t => t ≠ "") = [] := by
      rw [List.filter_eq_nil_iff]
      intro a ha
      obtain ⟨t, ht, rfl⟩ := List.mem_map.mp ha
      simp [h t ht]
    rw [hf]
    rfl
  refine ⟨hq, ?_⟩
  simp [bm25Search, hq]

theorem bm25Search_empty_tokens_raises_witness :
    (∀ t ∈ pySplit "!!! ???", cleanTerm t = "")
    ∧ buildTsquery "!!! ???" = ""
    ∧ bm25Search (fun _ => []) "!!! ???" 50
        = Except.error "to_tsquery raised: tsquery is empty" := by
  have h : ∀ t ∈ pySplit "!!! ???", cleanTerm t = "" := by decide
  have h2 := bm25Search_empty_tokens_raises (fun _ => []) 50 "!!! ???" h
  exact ⟨h, h2.1, h2.2⟩

def citeAB : CitationInfo :=
  { authors := ["Alice", "Bob"], title := "T", year := "2020", venue := "V", doi := "" }

/-- C8 counterexample: the two-author citation renders as "Alice et al." in
IEEE style and as "Alice." alone in MLA, not as "Alice & Bob": the 1/2/3+
author rule claimed to be style-independent is applied only by the APA
branch. -/
theorem citation_two_authors_ieee_cex :
    formatCitationString citeAB "ieee" = "Alice et al., \"T,\" V, 2020."
    ∧ formatCitationString citeAB "ieee" ≠ formatCitationStringSpec citeAB "ieee"
    ∧ formatCitationString citeAB "mla" ≠ formatCitationStringSpec citeAB "mla" := by
  refine ⟨?_, ?_, ?_⟩ <;> decide

/-- C8 (amended): the author-summary truncation rule is style-dependent:
APA follows the spec's rule on every author list (1 author → full name,
2 → "A & B", 3 or more → "A et al."), IEEE renders a single author in full
and two or more authors as "A et al.", and MLA always renders the first
author alone; in particular `["Alice", "Bob"]` renders as "Alice & Bob" only
in APA. -/
theorem citation_author_rule_by_style :
    (∀ c : CitationInfo, formatCitationString c "apa" = formatCitationStringSpec c "apa")
    ∧ (∀ (a b : String) (rest : List String) (t y v doi : String),
        formatCitationString ⟨a :: b :: rest, t, y, v, doi⟩ "ieee"
          = (if doi ≠ "" then
              a ++ " et al." ++ ", \"" ++ t ++ ",\" " ++ v ++ ", " ++ y ++ "." ++ " doi: " ++ doi
            else a ++ " et al." ++ ", \"" ++ t ++ ",\" " ++ v ++ ", " ++ y ++ "."))
    ∧ (∀ (a : String) (rest : List String) (t y v doi : String),
        formatCitationString ⟨a :: rest, t, y, v, doi⟩ "mla"
          = a ++ ". \"" ++ t ++ ".\" " ++ v ++ ", " ++ y ++ ".")
    ∧ formatCitationString citeAB "apa" = "Alice & Bob (2020). T. V." := by
  refine ⟨?_, ?_, ?_, by decide⟩
  · intro c
    obtain ⟨authors, t, y, v, doi⟩ := c
    rcases authors with _ | ⟨a, _ | ⟨b, _ | ⟨c3, rest⟩⟩⟩ <;> rfl
  · intro a b rest t y v doi
    rfl
  · intro a rest t y v doi
    rfl

/-- C9: both cosine-similarity helpers are total and division-safe: for
every pair of input vectors the result is a value, never the
division-by-zero marker — the zero-norm guard returns `0.0` before any
division — and whenever either vector has zero norm (zero sum of squares)
the result is exactly `some 0`. -/
theorem cosine_similarity_division_safe :
    ∀ v w : List ℚ,
      (cosine_similarity v w).isSome
      ∧ (fast_cosine_similarity v w).isSome
      ∧ (normSq v = 0 ∨ normSq w = 0 →
          cosine_similarity v w = some 0 ∧ fast_cosine_similarity v w = some 0) := by
  intro v w
  have base : ∀ u : List ℚ, (0 : ℚ) ≤ normSq u := by
    intro u
    refine List.sum_nonneg ?_
    intro x hx
    obtain ⟨y, _, rfl⟩ := List.mem_map.mp hx
    exact mul_self_nonneg y
  have hfc : ∀ a b : List ℚ, fast_cosine_similarity a b = cosine_similarity a b :=
    fun _ _ => rfl
  have hsome : (cosine_similarity v w).isSome := by
    unfold cosine_similarity
    by_cases h : vecNorm v = 0 ∨ vecNorm w = 0
    · rw [if_pos h]
      rfl
    · rw [if_neg h]
      push_neg at h
      rw [if_neg (mul_ne_zero h.1 h.2)]
      rfl
  refine ⟨hsome, by rw [hfc]; exact hsome, fun h0 => ?_⟩
  have hnorm0 : ∀ u : List ℚ, normSq u = 0 → vecNorm u = 0 := by
    intro u hu
    rw [vecNorm, Real.sqrt_eq_zero']
    rw [hu]
    norm_num
  have h : vecNorm v = 0 ∨ vecNorm w = 0 := h0.imp (hnorm0 v) (hnorm0 w)
  have hc : cosine_similarity v w = some 0 := by
    unfold cosine_similarity
    rw [if_pos h]
  exact ⟨hc, by rw [hfc]; exact hc⟩

theorem cosine_similarity_division_safe_witness :
    (cosine_similarity [0] [1, 2]).isSome
    ∧ normSq [0] = 0
    ∧ cosine_similarity [0] [1, 2] = some 0 := by
  have h0 : normSq ([0] : List ℚ) = 0 := by norm_num [normSq]
  have h := cosine_similarity_division_safe [0] [1, 2]
  exact ⟨h.1, h0, (h.2.2 (Or.inl h0)).1⟩

/-- C4: with the reranker unavailable (`use_reranker = false`, as `__init__`
leaves it after a failed reranker initialisation), `search` still returns up
to `top_k` citations, ordered by RRF fusion score descending, and every
returned citation's rerank score is the default `0.0` — no `rerank_score`
key is attached anywhere on this path. -/
theorem hybridSearch_degrades_without_reranker :
    ∀ (score : String → String → ℚ) (log1p : ℚ → ℚ) (query : String)
      (bm25_results vector_results : List Doc) (top_k : ℕ),
      (∀ d ∈ bm25_results ++ vector_results, d.rerank_score = none) →
      (hybridSearch score log1p false query bm25_results vector_results top_k).citations.length
          ≤ top_k
      ∧ (hybridSearch score log1p false query bm25_results vector_results
          top_k).citations.Sorted
            (fun a b => b.relevance_scores.rrf ≤ a.relevance_scores.rrf)
      ∧ ∀ c ∈ (hybridSearch score log1p false query bm25_results vector_results
          top_k).citations,
          c.relevance_scores.rerank = 0 := by
  intro score L q bm25 vec k hre
  have hcit : (hybridSearch score L false q bm25 vec k).citations
      = formatResults 1 ((((reciprocal_rank_fusion [bm25, vec] 60).take 80).take k).take k) :=
    rfl
  refine ⟨?_, ?_, ?_⟩
  · rw [hcit, formatResults_length]
    exact List.length_take_le _ _
  · rw [hcit]
    refine formatResults_pairwise (keyGe rrfVal) _ (fun i j a b hab => hab) 1 _ ?_
    exact List.Pairwise.sublist (List.take_sublist _ _)
      (List.Pairwise.sublist (List.take_sublist _ _)
        (List.Pairwise.sublist (List.take_sublist _ _) (rrf_sorted [bm25, vec] 60)))
  · rw [hcit]
    intro c hc
    obtain ⟨j, d, hd, rfl⟩ := mem_formatResults 1 _ c hc
    have hdf : d ∈ reciprocal_rank_fusion [bm25, vec] 60 :=
      List.mem_of_mem_take (List.mem_of_mem_take (List.mem_of_mem_take hd))
    obtain ⟨d0, hfirst, hform⟩ := rrf_elem_spec [bm25, vec] 60 d hdf
    have hd0mem : d0 ∈ ([bm25, vec] : List (List Doc)).flatten := firstDocWith_mem _ _ _ hfirst
    have hd0 : d0.rerank_score = none := by
      apply hre
      simp only [List.flatten_cons, List.flatten_nil, List.append_nil] at hd0mem
      exact hd0mem
    have hdr : d.rerank_score = d0.rerank_score := by rw [hform]
    show d.rerank_score.getD 0 = 0
    rw [hdr, hd0]
    rfl

theorem hybridSearch_degrades_without_reranker_witness :
    (∀ d ∈ [docLex] ++ [docVec], d.rerank_score = none)
    ∧ (hybridSearch (fun _ _ => 0) id false "q" [docLex] [docVec] 5).citations.length ≤ 5
    ∧ ∀ c ∈ (hybridSearch (fun _ _ => 0) id false "q" [docLex] [docVec] 5).citations,
        c.relevance_scores.rerank = 0 := by
  have h0 : ∀ d ∈ [docLex] ++ [docVec], d.rerank_score = none := by
    simp [docLex, docVec]
  have h := hybridSearch_degrades_without_reranker (fun _ _ => 0) id "q" [docLex] [docVec] 5 h0
  exact ⟨h0, h.1, h.2.2⟩

end UnswRag
